import Mathlib

/-
Verification of the odm download pipeline.

The repository has two Go programs sharing one design:
* the HTML variant (src/unnamed/part_000): resolves a manifest from an
  HTML-embedded JSON blob and runs a rate-limited, retrying download loop
  (`run`, lines 194-216) over `DownloadAttempt` records, calling
  `downloadFile` (lines 221-248) per attempt;
* the ODM variant (src/file/main.go): parses an XML descriptor, computes a
  vendor authentication hash, and downloads each part once via its own
  `downloadFile` (lines 175-209).

The definitions below are shallow embeddings of those functions.  HTTP is
modelled by an outcome oracle (`HttpResult`): the network response a given
GET would produce.  File-system writes are modelled by a Bool recording
whether the destination file was created (truncated).
-/

namespace Odm

/-- Outcome of one HTTP GET as seen by the caller: either a transport-level
failure (`client.Do` returned an error) or a response with a status code. -/
inductive HttpResult where
  | netErr : HttpResult
  | status : Nat → HttpResult
  deriving DecidableEq, Repr

/-- Result classification of one `downloadFile` call in the HTML variant
(src/unnamed/part_000 lines 221-248): `ok` models a nil error return,
`downloadFailed` models the sentinel `errDownloadFailed` returned for
HTTP 204, `statusErr s` models the formatted error for any other non-200
status, `netFail` models a propagated transport error. -/
inductive DlResult where
  | ok : DlResult
  | downloadFailed : DlResult
  | statusErr : Nat → DlResult
  | netFail : DlResult
  deriving DecidableEq, Repr

/-- The HTML-variant executor `downloadFile` (src/unnamed/part_000 lines
221-248), as a function of the response outcome.  Mirrors the source order:
a transport error returns first; then StatusNoContent (204) returns the
sentinel `errDownloadFailed`; then any status other than 200 returns a
status error; only then is the destination file created (`os.Create`,
truncating) and the body streamed into it.  The second component records
whether the destination file was created. -/
def downloadFile (resp : HttpResult) : DlResult × Bool :=
  match resp with
  | HttpResult.netErr => (DlResult.netFail, false)
  | HttpResult.status s =>
    if s = 204 then (DlResult.downloadFailed, false)
    else if s ≠ 200 then (DlResult.statusErr s, false)
    else (DlResult.ok, true)

/-- The ODM-variant executor `downloadFile` (src/file/main.go lines
175-209), as a function of the response outcome.  Mirrors the source: a
transport error returns first; then ANY status other than 200 (204
included, there is no no-content case in this variant) returns a status
error; only then is the destination file created and the body copied.
The second component records whether the destination file was created. -/
def downloadFileOdm (resp : HttpResult) : DlResult × Bool :=
  match resp with
  | HttpResult.netErr => (DlResult.netFail, false)
  | HttpResult.status s =>
    if s ≠ 200 then (DlResult.statusErr s, false)
    else (DlResult.ok, true)

/-- A result is fatal to the run when it is neither success nor the
retryable sentinel: the scheduler aborts on it (src/unnamed/part_000
lines 212-215). -/
def isFatal : DlResult → Bool
  | DlResult.statusErr _ => true
  | DlResult.netFail => true
  | _ => false

/-- One spine entry of the embedded JSON manifest (src/unnamed/part_000
`Spine`): a source path and a destination file name. -/
structure Spine where
  path : String
  originalPath : String
  deriving DecidableEq, Repr

/-- One work-queue element (src/unnamed/part_000 `DownloadAttempt`): the
retry count so far, the 1-based sequence index, and the destination name.
The `Request` field of the source struct is elided: its URL and headers do
not affect scheduling, and the response it would produce is modelled by
the oracle `net` below. -/
structure DownloadAttempt where
  count : Nat
  index : Nat
  name : String
  deriving DecidableEq, Repr

/-- One execution of the loop body, as observed behaviour: which attempt
ran (index, retry count) and how it was classified.  `succeeded` and
`failed` are the terminal per-entry outcomes; `retried` re-enqueues;
`fatalAttempt` aborts the whole run. -/
inductive Event where
  | succeeded (index count : Nat)
  | retried (index count : Nat)
  | failed (index count : Nat)
  | fatalAttempt (index count : Nat)
  deriving DecidableEq, Repr

/-- The sequence index of the attempt an event executed. -/
def evtIndex : Event → Nat
  | Event.succeeded i _ => i
  | Event.retried i _ => i
  | Event.failed i _ => i
  | Event.fatalAttempt i _ => i

/-- The retry count of the attempt an event executed. -/
def evtCount : Event → Nat
  | Event.succeeded _ c => c
  | Event.retried _ c => c
  | Event.failed _ c => c
  | Event.fatalAttempt _ c => c

/-- Terminal per-entry outcomes: Succeeded or Failed. -/
def isTerminal : Event → Bool
  | Event.succeeded _ _ => true
  | Event.failed _ _ => true
  | _ => false

@[simp] theorem evtIndex_succeeded (i c : Nat) :
    evtIndex (Event.succeeded i c) = i := rfl

@[simp] theorem evtIndex_retried (i c : Nat) :
    evtIndex (Event.retried i c) = i := rfl

@[simp] theorem evtIndex_failed (i c : Nat) :
    evtIndex (Event.failed i c) = i := rfl

@[simp] theorem evtIndex_fatalAttempt (i c : Nat) :
    evtIndex (Event.fatalAttempt i c) = i := rfl

@[simp] theorem evtCount_succeeded (i c : Nat) :
    evtCount (Event.succeeded i c) = c := rfl

@[simp] theorem evtCount_retried (i c : Nat) :
    evtCount (Event.retried i c) = c := rfl

@[simp] theorem evtCount_failed (i c : Nat) :
    evtCount (Event.failed i c) = c := rfl

@[simp] theorem evtCount_fatalAttempt (i c : Nat) :
    evtCount (Event.fatalAttempt i c) = c := rfl

@[simp] theorem isTerminal_succeeded (i c : Nat) :
    isTerminal (Event.succeeded i c) = true := rfl

@[simp] theorem isTerminal_retried (i c : Nat) :
    isTerminal (Event.retried i c) = false := rfl

@[simp] theorem isTerminal_failed (i c : Nat) :
    isTerminal (Event.failed i c) = true := rfl

@[simp] theorem isTerminal_fatalAttempt (i c : Nat) :
    isTerminal (Event.fatalAttempt i c) = false := rfl

/-- Termination measure for the queue-draining loop: each pending attempt
with retry count c can cause at most retryCount + 1 - c executions, plus
one unit per queue element so the measure strictly decreases each step. -/
def queueMeasure (retryCount : Nat) (q : List DownloadAttempt) : Nat :=
  (q.map fun a => retryCount + 1 - a.count).sum + q.length

/-- The scheduler loop of `run` (src/unnamed/part_000 lines 194-216),
fuelled.  The Go loop walks `requests` by an index that chases the growing
slice, which is exactly a queue drained from the front with retries
appended at the back:

* a nil `downloadFile` error logs success and moves on;
* `errDownloadFailed` with `Count < retryCount` appends a copy of the
  attempt with `Count + 1` at the tail of the slice (lines 203-208);
* `errDownloadFailed` with `Count ≥ retryCount` logs failure and moves on
  (lines 209-211);
* any other error returns immediately, wrapped with the attempt's 1-based
  `Index` (lines 212-215).

`net i c` is the response the GET for entry `i` on its attempt with retry
count `c` would produce.  Returns the list of executed events and, when
the run aborted, the propagated `(index, error)` pair.  The fuel argument
only makes the recursion structural; `runLoop` below always supplies
enough fuel, and `runLoopAux_fuel_congr` shows the result is then
independent of the fuel, i.e. the Go loop terminates. -/
def runLoopAux (retryCount : Nat) (net : Nat → Nat → HttpResult) :
    Nat → List DownloadAttempt → List Event × Option (Nat × DlResult)
  | _, [] => ([], none)
  | 0, _ :: _ => ([], none)
  | fuel + 1, a :: rest =>
    match (downloadFile (net a.index a.count)).1 with
    | DlResult.ok =>
      let p := runLoopAux retryCount net fuel rest
      (Event.succeeded a.index a.count :: p.1, p.2)
    | DlResult.downloadFailed =>
      if a.count < retryCount then
        let p := runLoopAux retryCount net fuel
          (rest ++ [⟨a.count + 1, a.index, a.name⟩])
        (Event.retried a.index a.count :: p.1, p.2)
      else
        let p := runLoopAux retryCount net fuel rest
        (Event.failed a.index a.count :: p.1, p.2)
    | DlResult.statusErr s =>
      ([Event.fatalAttempt a.index a.count], some (a.index, DlResult.statusErr s))
    | DlResult.netFail =>
      ([Event.fatalAttempt a.index a.count], some (a.index, DlResult.netFail))

/-- The scheduler loop with sufficient fuel: the model of `run`'s
queue-draining loop. -/
def runLoop (retryCount : Nat) (net : Nat → Nat → HttpResult)
    (q : List DownloadAttempt) : List Event × Option (Nat × DlResult) :=
  runLoopAux retryCount net (queueMeasure retryCount q) q

/-- Building the initial work queue from the spine (src/unnamed/part_000
lines 175-192): entry at position k gets `Count = 0`, `Index = k + 1`
(1-based) and `Name = spine.OriginalPath`, in spine order.  `k` is the
position of the first remaining entry. -/
def mkAttemptsFrom (k : Nat) : List Spine → List DownloadAttempt
  | [] => []
  | s :: ss => ⟨0, k + 1, s.originalPath⟩ :: mkAttemptsFrom (k + 1) ss

/-- The initial work queue for a manifest’s spine. -/
def mkAttempts (spine : List Spine) : List DownloadAttempt :=
  mkAttemptsFrom 0 spine

/-- The event the loop body produces when executing attempt `a` (assuming
it does not abort there). -/
def evtOf (retryCount : Nat) (net : Nat → Nat → HttpResult)
    (a : DownloadAttempt) : Event :=
  match (downloadFile (net a.index a.count)).1 with
  | DlResult.ok => Event.succeeded a.index a.count
  | DlResult.downloadFailed =>
    if a.count < retryCount then Event.retried a.index a.count
    else Event.failed a.index a.count
  | _ => Event.fatalAttempt a.index a.count

/-- The oracle never produces an outcome the scheduler treats as fatal:
every attempt either succeeds or hits the retryable 204 condition. -/
def NoFatal (net : Nat → Nat → HttpResult) : Prop :=
  ∀ i c, (downloadFile (net i c)).1 = DlResult.ok ∨
    (downloadFile (net i c)).1 = DlResult.downloadFailed

/-! Basic lemmas about the termination measure and one loop step. -/

theorem queueMeasure_nil (R : Nat) : queueMeasure R [] = 0 := rfl

theorem queueMeasure_cons (R : Nat) (a : DownloadAttempt)
    (rest : List DownloadAttempt) :
    queueMeasure R (a :: rest) = (R + 1 - a.count) + 1 + queueMeasure R rest := by
  simp [queueMeasure]
  omega

theorem queueMeasure_append_one (R : Nat) (rest : List DownloadAttempt)
    (b : DownloadAttempt) :
    queueMeasure R (rest ++ [b]) = queueMeasure R rest + (R + 1 - b.count) + 1 := by
  simp [queueMeasure]
  omega

theorem runLoopAux_nil (R : Nat) (net : Nat → Nat → HttpResult) (f : Nat) :
    runLoopAux R net f [] = ([], none) := by
  cases f <;> rfl

theorem runLoopAux_cons_ok (R : Nat) (net : Nat → Nat → HttpResult)
    (fuel : Nat) (a : DownloadAttempt) (rest : List DownloadAttempt)
    (h : (downloadFile (net a.index a.count)).1 = DlResult.ok) :
    runLoopAux R net (fuel + 1) (a :: rest) =
      (Event.succeeded a.index a.count :: (runLoopAux R net fuel rest).1,
        (runLoopAux R net fuel rest).2) := by
  simp only [runLoopAux, h]

theorem runLoopAux_cons_retry (R : Nat) (net : Nat → Nat → HttpResult)
    (fuel : Nat) (a : DownloadAttempt) (rest : List DownloadAttempt)
    (h : (downloadFile (net a.index a.count)).1 = DlResult.downloadFailed)
    (hc : a.count < R) :
    runLoopAux R net (fuel + 1) (a :: rest) =
      (Event.retried a.index a.count ::
        (runLoopAux R net fuel (rest ++ [⟨a.count + 1, a.index, a.name⟩])).1,
        (runLoopAux R net fuel (rest ++ [⟨a.count + 1, a.index, a.name⟩])).2) := by
  simp only [runLoopAux, h, if_pos hc]

theorem runLoopAux_cons_exhaust (R : Nat) (net : Nat → Nat → HttpResult)
    (fuel : Nat) (a : DownloadAttempt) (rest : List DownloadAttempt)
    (h : (downloadFile (net a.index a.count)).1 = DlResult.downloadFailed)
    (hc : ¬ a.count < R) :
    runLoopAux R net (fuel + 1) (a :: rest) =
      (Event.failed a.index a.count :: (runLoopAux R net fuel rest).1,
        (runLoopAux R net fuel rest).2) := by
  simp only [runLoopAux, h, if_neg hc]

theorem runLoopAux_cons_statusErr (R : Nat) (net : Nat → Nat → HttpResult)
    (fuel : Nat) (a : DownloadAttempt) (rest : List DownloadAttempt) (s : Nat)
    (h : (downloadFile (net a.index a.count)).1 = DlResult.statusErr s) :
    runLoopAux R net (fuel + 1) (a :: rest) =
      ([Event.fatalAttempt a.index a.count],
        some (a.index, DlResult.statusErr s)) := by
  simp only [runLoopAux, h]

theorem runLoopAux_cons_netFail (R : Nat) (net : Nat → Nat → HttpResult)
    (fuel : Nat) (a : DownloadAttempt) (rest : List DownloadAttempt)
    (h : (downloadFile (net a.index a.count)).1 = DlResult.netFail) :
    runLoopAux R net (fuel + 1) (a :: rest) =
      ([Event.fatalAttempt a.index a.count],
        some (a.index, DlResult.netFail)) := by
  simp only [runLoopAux, h]

/-- With enough fuel, the fuelled loop no longer depends on the fuel: the
queue-draining loop of `run` terminates and `queueMeasure` bounds its
number of iterations. -/
theorem runLoopAux_fuel_congr (R : Nat) (net : Nat → Nat → HttpResult) :
    ∀ f g q, queueMeasure R q ≤ f → queueMeasure R q ≤ g →
      runLoopAux R net f q = runLoopAux R net g q := by
  intro f
  induction f with
  | zero =>
    intro g q hf _
    match q with
    | [] => simp [runLoopAux_nil]
    | a :: rest =>
      rw [queueMeasure_cons] at hf
      omega
  | succ f ih =>
    intro g q hf hg
    match q with
    | [] => simp [runLoopAux_nil]
    | a :: rest =>
      have hm := queueMeasure_cons R a rest
      match g, hg with
      | g + 1, hg =>
        rcases hdl : (downloadFile (net a.index a.count)).1 with _ | _ | s | _
        · rw [runLoopAux_cons_ok R net f a rest hdl,
            runLoopAux_cons_ok R net g a rest hdl,
            ih g rest (by omega) (by omega)]
        · by_cases hc : a.count < R
          · rw [runLoopAux_cons_retry R net f a rest hdl hc,
              runLoopAux_cons_retry R net g a rest hdl hc]
            have hq : queueMeasure R
                (rest ++ [(⟨a.count + 1, a.index, a.name⟩ : DownloadAttempt)]) + 1 =
                queueMeasure R (a :: rest) := by
              rw [queueMeasure_append_one]
              simp only
              omega
            have hih := ih g
              (rest ++ [(⟨a.count + 1, a.index, a.name⟩ : DownloadAttempt)])
              (by omega) (by omega)
            rw [hih]
          · rw [runLoopAux_cons_exhaust R net f a rest hdl hc,
              runLoopAux_cons_exhaust R net g a rest hdl hc,
              ih g rest (by omega) (by omega)]
        · rw [runLoopAux_cons_statusErr R net f a rest s hdl,
            runLoopAux_cons_statusErr R net g a rest s hdl]
        · rw [runLoopAux_cons_netFail R net f a rest hdl,
            runLoopAux_cons_netFail R net g a rest hdl]

/-! Quantitative lemmas about the loop trace. -/

/-- Total number of executed attempts is bounded by the sum of the
per-attempt retry budgets of the pending queue. -/
theorem runLoopAux_length_le (R : Nat) (net : Nat → Nat → HttpResult) :
    ∀ fuel q, queueMeasure R q ≤ fuel → (∀ a ∈ q, a.count ≤ R) →
      (runLoopAux R net fuel q).1.length ≤
        (q.map fun a => R + 1 - a.count).sum := by
  intro fuel
  induction fuel with
  | zero =>
    intro q hf _
    match q with
    | [] => simp [runLoopAux_nil]
    | a :: rest => rw [queueMeasure_cons] at hf; omega
  | succ f ih =>
    intro q hf hcnt
    match q with
    | [] => simp [runLoopAux_nil]
    | a :: rest =>
      have hm := queueMeasure_cons R a rest
      have haR : a.count ≤ R := hcnt a (by simp)
      have hrest : ∀ b ∈ rest, b.count ≤ R := fun b hb => hcnt b (by simp [hb])
      rcases hdl : (downloadFile (net a.index a.count)).1 with _ | _ | s | _
      · rw [runLoopAux_cons_ok R net f a rest hdl]
        have hr := ih rest (by omega) hrest
        simp only [List.length_cons, List.map_cons, List.sum_cons]
        omega
      · by_cases hc : a.count < R
        · rw [runLoopAux_cons_retry R net f a rest hdl hc]
          have hq : queueMeasure R
              (rest ++ [(⟨a.count + 1, a.index, a.name⟩ : DownloadAttempt)]) + 1 =
              queueMeasure R (a :: rest) := by
            rw [queueMeasure_append_one]
            simp only
            omega
          have hcnt2 : ∀ b ∈ rest ++
              [(⟨a.count + 1, a.index, a.name⟩ : DownloadAttempt)], b.count ≤ R := by
            intro b hb
            rcases List.mem_append.mp hb with h | h
            · exact hrest b h
            · simp only [List.mem_singleton] at h
              subst h
              simpa using hc
          have hr := ih (rest ++ [(⟨a.count + 1, a.index, a.name⟩ : DownloadAttempt)])
            (by omega) hcnt2
          simp only [List.map_append, List.sum_append, List.map_cons, List.sum_cons,
            List.map_nil, List.sum_nil, List.length_cons] at hr ⊢
          omega
        · rw [runLoopAux_cons_exhaust R net f a rest hdl hc]
          have hr := ih rest (by omega) hrest
          simp only [List.length_cons, List.map_cons, List.sum_cons]
          omega
      · rw [runLoopAux_cons_statusErr R net f a rest s hdl]
        simp only [List.length_cons, List.length_nil, List.map_cons, List.sum_cons]
        omega
      · rw [runLoopAux_cons_netFail R net f a rest hdl]
        simp only [List.length_cons, List.length_nil, List.map_cons, List.sum_cons]
        omega

/-- Retry budget of one entry within a queue: the executions the queue can
still cause for sequence index `i`. -/
def idxSum (R i : Nat) (q : List DownloadAttempt) : Nat :=
  ((q.filter fun a => a.index == i).map fun a => R + 1 - a.count).sum

/-- Number of executed attempts for one entry is bounded by that entry's
remaining budget in the queue. -/
theorem runLoopAux_index_le (R : Nat) (net : Nat → Nat → HttpResult) (i : Nat) :
    ∀ fuel q, queueMeasure R q ≤ fuel → (∀ a ∈ q, a.count ≤ R) →
      ((runLoopAux R net fuel q).1.filter fun e => evtIndex e == i).length ≤
        idxSum R i q := by
  intro fuel
  induction fuel with
  | zero =>
    intro q hf _
    match q with
    | [] => simp [runLoopAux_nil]
    | a :: rest => rw [queueMeasure_cons] at hf; omega
  | succ f ih =>
    intro q hf hcnt
    match q with
    | [] => simp [runLoopAux_nil]
    | a :: rest =>
      have hm := queueMeasure_cons R a rest
      have haR : a.count ≤ R := hcnt a (by simp)
      have hrest : ∀ b ∈ rest, b.count ≤ R := fun b hb => hcnt b (by simp [hb])
      have hsum : idxSum R i (a :: rest) =
          (if a.index == i then R + 1 - a.count else 0) + idxSum R i rest := by
        rcases Bool.eq_false_or_eq_true (a.index == i) with hai | hai <;>
          simp [idxSum, List.filter_cons, hai]
      rcases hdl : (downloadFile (net a.index a.count)).1 with _ | _ | s | _
      · rw [runLoopAux_cons_ok R net f a rest hdl]
        have hr := ih rest (by omega) hrest
        rw [hsum]
        rcases Bool.eq_false_or_eq_true (a.index == i) with hai | hai <;>
          simp [List.filter_cons, hai] <;> omega
      · by_cases hc : a.count < R
        · rw [runLoopAux_cons_retry R net f a rest hdl hc]
          have hq : queueMeasure R
              (rest ++ [(⟨a.count + 1, a.index, a.name⟩ : DownloadAttempt)]) + 1 =
              queueMeasure R (a :: rest) := by
            rw [queueMeasure_append_one]
            simp only
            omega
          have hcnt2 : ∀ b ∈ rest ++
              [(⟨a.count + 1, a.index, a.name⟩ : DownloadAttempt)], b.count ≤ R := by
            intro b hb
            rcases List.mem_append.mp hb with h | h
            · exact hrest b h
            · simp only [List.mem_singleton] at h
              subst h
              simpa using hc
          have hr := ih (rest ++ [(⟨a.count + 1, a.index, a.name⟩ : DownloadAttempt)])
            (by omega) hcnt2
          have happ : idxSum R i
              (rest ++ [(⟨a.count + 1, a.index, a.name⟩ : DownloadAttempt)]) =
              idxSum R i rest + (if a.index == i then R - a.count else 0) := by
            rcases Bool.eq_false_or_eq_true (a.index == i) with hai | hai <;>
              simp [idxSum, List.filter_append, List.filter_cons, hai]
          rw [happ] at hr
          rw [hsum]
          rcases Bool.eq_false_or_eq_true (a.index == i) with hai | hai <;>
            simp [List.filter_cons, hai] at hr ⊢ <;> omega
        · rw [runLoopAux_cons_exhaust R net f a rest hdl hc]
          have hr := ih rest (by omega) hrest
          rw [hsum]
          rcases Bool.eq_false_or_eq_true (a.index == i) with hai | hai <;>
            simp [List.filter_cons, hai] <;> omega
      · rw [runLoopAux_cons_statusErr R net f a rest s hdl]
        rw [hsum]
        rcases Bool.eq_false_or_eq_true (a.index == i) with hai | hai <;>
          simp [List.filter_cons, hai] <;> omega
      · rw [runLoopAux_cons_netFail R net f a rest hdl]
        rw [hsum]
        rcases Bool.eq_false_or_eq_true (a.index == i) with hai | hai <;>
          simp [List.filter_cons, hai] <;> omega

@[simp] theorem evtIndex_evtOf (R : Nat) (net : Nat → Nat → HttpResult)
    (a : DownloadAttempt) : evtIndex (evtOf R net a) = a.index := by
  unfold evtOf
  rcases hdl : (downloadFile (net a.index a.count)).1 with _ | _ | s | _
  · simp
  · by_cases hc : a.count < R <;> simp [hc]
  · simp
  · simp

@[simp] theorem evtCount_evtOf (R : Nat) (net : Nat → Nat → HttpResult)
    (a : DownloadAttempt) : evtCount (evtOf R net a) = a.count := by
  unfold evtOf
  rcases hdl : (downloadFile (net a.index a.count)).1 with _ | _ | s | _
  · simp
  · by_cases hc : a.count < R <;> simp [hc]
  · simp
  · simp

/-- Under a fatal-free oracle, each queue occurrence of an entry yields
exactly one terminal (Succeeded or Failed) event for that entry. -/
theorem runLoopAux_terminal_count (R : Nat) (net : Nat → Nat → HttpResult)
    (i : Nat) (hnf : NoFatal net) :
    ∀ fuel q, queueMeasure R q ≤ fuel →
      ((runLoopAux R net fuel q).1.filter
          fun e => isTerminal e && (evtIndex e == i)).length =
        (q.filter fun a => a.index == i).length := by
  intro fuel
  induction fuel with
  | zero =>
    intro q hf
    match q with
    | [] => simp [runLoopAux_nil]
    | a :: rest => rw [queueMeasure_cons] at hf; omega
  | succ f ih =>
    intro q hf
    match q with
    | [] => simp [runLoopAux_nil]
    | a :: rest =>
      have hm := queueMeasure_cons R a rest
      rcases hdl : (downloadFile (net a.index a.count)).1 with _ | _ | s | _
      · rw [runLoopAux_cons_ok R net f a rest hdl]
        have hr := ih rest (by omega)
        rcases Bool.eq_false_or_eq_true (a.index == i) with hai | hai <;>
          simp [List.filter_cons, hai] <;> omega
      · by_cases hc : a.count < R
        · rw [runLoopAux_cons_retry R net f a rest hdl hc]
          have hq : queueMeasure R
              (rest ++ [(⟨a.count + 1, a.index, a.name⟩ : DownloadAttempt)]) + 1 =
              queueMeasure R (a :: rest) := by
            rw [queueMeasure_append_one]
            simp only
            omega
          have hr := ih (rest ++ [(⟨a.count + 1, a.index, a.name⟩ : DownloadAttempt)])
            (by omega)
          rcases Bool.eq_false_or_eq_true (a.index == i) with hai | hai <;>
            simp [List.filter_cons, List.filter_append, hai] at hr ⊢ <;> omega
        · rw [runLoopAux_cons_exhaust R net f a rest hdl hc]
          have hr := ih rest (by omega)
          rcases Bool.eq_false_or_eq_true (a.index == i) with hai | hai <;>
            simp [List.filter_cons, hai] <;> omega
      · exact absurd (hnf a.index a.count) (by simp [hdl])
      · exact absurd (hnf a.index a.count) (by simp [hdl])

/-- Under a fatal-free oracle, the k-th executed attempt is exactly the
k-th element of the pending queue (for k within the queue): the loop
drains the queue from the front, in order. -/
theorem runLoopAux_getElem (R : Nat) (net : Nat → Nat → HttpResult)
    (hnf : NoFatal net) :
    ∀ fuel q, queueMeasure R q ≤ fuel → ∀ k, k < q.length →
      ((runLoopAux R net fuel q).1)[k]? = (q[k]?).map (evtOf R net) := by
  intro fuel
  induction fuel with
  | zero =>
    intro q hf
    match q with
    | [] => simp
    | a :: rest => rw [queueMeasure_cons] at hf; omega
  | succ f ih =>
    intro q hf k hk
    match q with
    | [] => simp at hk
    | a :: rest =>
      have hm := queueMeasure_cons R a rest
      rcases hdl : (downloadFile (net a.index a.count)).1 with _ | _ | s | _
      · rw [runLoopAux_cons_ok R net f a rest hdl]
        match k with
        | 0 => simp [evtOf, hdl]
        | k + 1 =>
          simp only [List.getElem?_cons_succ]
          exact ih rest (by omega) k (by simpa using hk)
      · by_cases hc : a.count < R
        · rw [runLoopAux_cons_retry R net f a rest hdl hc]
          have hq : queueMeasure R
              (rest ++ [(⟨a.count + 1, a.index, a.name⟩ : DownloadAttempt)]) + 1 =
              queueMeasure R (a :: rest) := by
            rw [queueMeasure_append_one]
            simp only
            omega
          match k with
          | 0 => simp [evtOf, hdl, hc]
          | k + 1 =>
            simp only [List.getElem?_cons_succ]
            have hk2 : k < rest.length := by simpa using hk
            have hih := ih (rest ++ [(⟨a.count + 1, a.index, a.name⟩ : DownloadAttempt)])
              (by omega) k (by simp; omega)
            rw [hih, List.getElem?_append_left hk2]
        · rw [runLoopAux_cons_exhaust R net f a rest hdl hc]
          match k with
          | 0 => simp [evtOf, hdl, hc]
          | k + 1 =>
            simp only [List.getElem?_cons_succ]
            exact ih rest (by omega) k (by simpa using hk)
      · exact absurd (hnf a.index a.count) (by simp [hdl])
      · exact absurd (hnf a.index a.count) (by simp [hdl])

/-- Under a fatal-free oracle, every event past the initially queued ones
executes a re-enqueued attempt, so its retry count is at least 1. -/
theorem runLoopAux_late_count (R : Nat) (net : Nat → Nat → HttpResult)
    (hnf : NoFatal net) :
    ∀ fuel q, queueMeasure R q ≤ fuel → ∀ j e, q.length ≤ j →
      ((runLoopAux R net fuel q).1)[j]? = some e → 1 ≤ evtCount e := by
  intro fuel
  induction fuel with
  | zero =>
    intro q hf j e _ hget
    match q with
    | [] => simp [runLoopAux_nil] at hget
    | a :: rest => rw [queueMeasure_cons] at hf; omega
  | succ f ih =>
    intro q hf j e hj hget
    match q with
    | [] => simp [runLoopAux_nil] at hget
    | a :: rest =>
      have hm := queueMeasure_cons R a rest
      match j, hj with
      | j + 1, hj =>
        have hj2 : rest.length ≤ j := by simpa using hj
        rcases hdl : (downloadFile (net a.index a.count)).1 with _ | _ | s | _
        · rw [runLoopAux_cons_ok R net f a rest hdl] at hget
          exact ih rest (by omega) j e hj2 (by simpa using hget)
        · by_cases hc : a.count < R
          · rw [runLoopAux_cons_retry R net f a rest hdl hc] at hget
            have hq : queueMeasure R
                (rest ++ [(⟨a.count + 1, a.index, a.name⟩ : DownloadAttempt)]) + 1 =
                queueMeasure R (a :: rest) := by
              rw [queueMeasure_append_one]
              simp only
              omega
            simp only [List.getElem?_cons_succ] at hget
            rcases Nat.lt_or_ge j (rest.length + 1) with hlt | hge
            · have hjeq : j = rest.length := by omega
              subst hjeq
              have hnth := runLoopAux_getElem R net hnf f
                (rest ++ [(⟨a.count + 1, a.index, a.name⟩ : DownloadAttempt)])
                (by omega) rest.length (by simp)
              rw [hget] at hnth
              have hq2 : (rest ++
                  [(⟨a.count + 1, a.index, a.name⟩ : DownloadAttempt)])[rest.length]? =
                  some (⟨a.count + 1, a.index, a.name⟩ : DownloadAttempt) := by
                rw [List.getElem?_append_right (Nat.le_refl _)]
                simp
              rw [hq2] at hnth
              have hcnt := congrArg (Option.map evtCount) hnth
              simp [evtCount_evtOf] at hcnt
              omega
            · have hlen : (rest ++
                  [(⟨a.count + 1, a.index, a.name⟩ : DownloadAttempt)]).length ≤ j := by
                simp
                omega
              exact ih (rest ++ [(⟨a.count + 1, a.index, a.name⟩ : DownloadAttempt)])
                (by omega) j e hlen hget
          · rw [runLoopAux_cons_exhaust R net f a rest hdl hc] at hget
            exact ih rest (by omega) j e hj2 (by simpa using hget)
        · exact absurd (hnf a.index a.count) (by simp [hdl])
        · exact absurd (hnf a.index a.count) (by simp [hdl])

/-- When the run aborts, the propagated pair carries the index of an
attempt that descends from the pending queue, the propagated error is
fatal, and the aborting execution is the last event of the trace: nothing
runs after it. -/
theorem runLoopAux_fatal (R : Nat) (net : Nat → Nat → HttpResult) :
    ∀ fuel q, queueMeasure R q ≤ fuel → ∀ i e,
      (runLoopAux R net fuel q).2 = some (i, e) →
        isFatal e = true ∧ (∃ a ∈ q, a.index = i) ∧
        ∃ t c, (runLoopAux R net fuel q).1 = t ++ [Event.fatalAttempt i c] ∧
          (downloadFile (net i c)).1 = e := by
  intro fuel
  induction fuel with
  | zero =>
    intro q hf i e hres
    match q with
    | [] => simp [runLoopAux_nil] at hres
    | a :: rest => rw [queueMeasure_cons] at hf; omega
  | succ f ih =>
    intro q hf i e hres
    match q with
    | [] => simp [runLoopAux_nil] at hres
    | a :: rest =>
      have hm := queueMeasure_cons R a rest
      rcases hdl : (downloadFile (net a.index a.count)).1 with _ | _ | s | _
      · rw [runLoopAux_cons_ok R net f a rest hdl] at hres ⊢
        simp only at hres
        obtain ⟨hfat, ⟨b, hb, hbi⟩, t, c, htr, hdf⟩ := ih rest (by omega) i e hres
        refine ⟨hfat, ⟨b, by simp [hb], hbi⟩, Event.succeeded a.index a.count :: t, c, ?_, hdf⟩
        simp [htr]
      · by_cases hc : a.count < R
        · rw [runLoopAux_cons_retry R net f a rest hdl hc] at hres ⊢
          simp only at hres
          have hq : queueMeasure R
              (rest ++ [(⟨a.count + 1, a.index, a.name⟩ : DownloadAttempt)]) + 1 =
              queueMeasure R (a :: rest) := by
            rw [queueMeasure_append_one]
            simp only
            omega
          obtain ⟨hfat, ⟨b, hb, hbi⟩, t, c, htr, hdf⟩ :=
            ih (rest ++ [(⟨a.count + 1, a.index, a.name⟩ : DownloadAttempt)])
              (by omega) i e hres
          refine ⟨hfat, ?_, Event.retried a.index a.count :: t, c, ?_, hdf⟩
          · rcases List.mem_append.mp hb with h | h
            · exact ⟨b, by simp [h], hbi⟩
            · simp only [List.mem_singleton] at h
              subst h
              exact ⟨a, by simp, by simpa using hbi⟩
          · simp [htr]
        · rw [runLoopAux_cons_exhaust R net f a rest hdl hc] at hres ⊢
          simp only at hres
          obtain ⟨hfat, ⟨b, hb, hbi⟩, t, c, htr, hdf⟩ := ih rest (by omega) i e hres
          refine ⟨hfat, ⟨b, by simp [hb], hbi⟩, Event.failed a.index a.count :: t, c, ?_, hdf⟩
          simp [htr]
      · rw [runLoopAux_cons_statusErr R net f a rest s hdl] at hres ⊢
        simp only [Option.some_inj, Prod.mk.injEq] at hres
        obtain ⟨hi, he⟩ := hres
        subst hi
        subst he
        exact ⟨rfl, ⟨a, by simp, rfl⟩, [], a.count, by simp, hdl⟩
      · rw [runLoopAux_cons_netFail R net f a rest hdl] at hres ⊢
        simp only [Option.some_inj, Prod.mk.injEq] at hres
        obtain ⟨hi, he⟩ := hres
        subst hi
        subst he
        exact ⟨rfl, ⟨a, by simp, rfl⟩, [], a.count, by simp, hdl⟩

/-! Lemmas about the initial queue built from the spine, and single-step
corollaries at the `runLoop` level. -/

theorem mkAttemptsFrom_length (k : Nat) (ss : List Spine) :
    (mkAttemptsFrom k ss).length = ss.length := by
  induction ss generalizing k with
  | nil => rfl
  | cons s ss ih => simp [mkAttemptsFrom, ih]

theorem mkAttemptsFrom_mem (k : Nat) (ss : List Spine) (a : DownloadAttempt)
    (ha : a ∈ mkAttemptsFrom k ss) :
    a.count = 0 ∧ k + 1 ≤ a.index ∧ a.index ≤ k + ss.length := by
  induction ss generalizing k with
  | nil => simp [mkAttemptsFrom] at ha
  | cons s ss ih =>
    simp only [mkAttemptsFrom, List.mem_cons] at ha
    rcases ha with rfl | ha
    · refine ⟨rfl, le_refl _, ?_⟩
      show k + 1 ≤ k + (s :: ss).length
      simp only [List.length_cons]
      omega
    · obtain ⟨h1, h2, h3⟩ := ih (k + 1) ha
      refine ⟨h1, by omega, ?_⟩
      simp only [List.length_cons]
      omega

theorem mkAttemptsFrom_getElem (k : Nat) (ss : List Spine) :
    ∀ j, j < ss.length → ∃ s, ss[j]? = some s ∧
      (mkAttemptsFrom k ss)[j]? =
        some (⟨0, k + j + 1, s.originalPath⟩ : DownloadAttempt) := by
  induction ss generalizing k with
  | nil => intro j hj; simp at hj
  | cons s ss ih =>
    intro j hj
    match j with
    | 0 => exact ⟨s, by simp, by simp [mkAttemptsFrom]⟩
    | j + 1 =>
      obtain ⟨s2, hs2, hget⟩ := ih (k + 1) j (by simpa using hj)
      refine ⟨s2, by simpa using hs2, ?_⟩
      show (mkAttemptsFrom k (s :: ss))[j + 1]? = _
      simp only [mkAttemptsFrom, List.getElem?_cons_succ]
      rw [hget]
      have harith : k + 1 + j + 1 = k + (j + 1) + 1 := by omega
      rw [harith]

theorem mkAttemptsFrom_filter_nil (k i : Nat) (ss : List Spine) (hik : i ≤ k) :
    ((mkAttemptsFrom k ss).filter fun a => a.index == i) = [] := by
  rw [List.filter_eq_nil_iff]
  intro b hb
  obtain ⟨_, hb2, _⟩ := mkAttemptsFrom_mem k ss b hb
  simp only [beq_eq_false_iff_ne, ne_eq, Bool.not_eq_true, beq_eq_false_iff_ne]
  omega

theorem mkAttemptsFrom_filter_le_one (k i : Nat) (ss : List Spine) :
    ((mkAttemptsFrom k ss).filter fun a => a.index == i).length ≤ 1 := by
  induction ss generalizing k with
  | nil => simp [mkAttemptsFrom]
  | cons s ss ih =>
    simp only [mkAttemptsFrom, List.filter_cons]
    by_cases hki : k + 1 = i
    · have hb : ((⟨0, k + 1, s.originalPath⟩ : DownloadAttempt).index == i) = true := by
        simp [hki]
      rw [hb, if_pos rfl, mkAttemptsFrom_filter_nil (k + 1) i ss (by omega)]
      simp
    · have hb : ((⟨0, k + 1, s.originalPath⟩ : DownloadAttempt).index == i) = false := by
        simp [hki]
      rw [hb]
      simpa using ih (k + 1)

theorem mkAttemptsFrom_filter_eq_one (k i : Nat) (ss : List Spine)
    (h1 : k + 1 ≤ i) (h2 : i ≤ k + ss.length) :
    ((mkAttemptsFrom k ss).filter fun a => a.index == i).length = 1 := by
  induction ss generalizing k with
  | nil => simp at h2; omega
  | cons s ss ih =>
    simp only [mkAttemptsFrom, List.filter_cons]
    by_cases hki : k + 1 = i
    · have hb : ((⟨0, k + 1, s.originalPath⟩ : DownloadAttempt).index == i) = true := by
        simp [hki]
      rw [hb, if_pos rfl, mkAttemptsFrom_filter_nil (k + 1) i ss (by omega)]
      simp
    · have hb : ((⟨0, k + 1, s.originalPath⟩ : DownloadAttempt).index == i) = false := by
        simp [hki]
      rw [hb]
      simp only [Bool.false_eq_true, if_false]
      refine ih (k + 1) (by omega) ?_
      simp only [List.length_cons] at h2
      omega

theorem mkAttemptsFrom_budget_sum (R k : Nat) (ss : List Spine) :
    ((mkAttemptsFrom k ss).map fun a => R + 1 - a.count).sum =
      ss.length * (R + 1) := by
  induction ss generalizing k with
  | nil => simp [mkAttemptsFrom]
  | cons s ss ih =>
    simp only [mkAttemptsFrom, List.map_cons, List.sum_cons, ih (k + 1),
      List.length_cons]
    ring_nf
    omega

theorem idxSum_le (R i : Nat) (q : List DownloadAttempt)
    (hlen : (q.filter fun a => a.index == i).length ≤ 1) :
    idxSum R i q ≤ R + 1 := by
  unfold idxSum
  calc ((q.filter fun a => a.index == i).map fun a => R + 1 - a.count).sum
      ≤ ((q.filter fun a => a.index == i).map fun a => R + 1 - a.count).length *
          (R + 1) := by
        apply List.sum_le_card_nsmul
        intro x hx
        simp only [List.mem_map] at hx
        obtain ⟨b, _, rfl⟩ := hx
        omega
    _ ≤ R + 1 := by
        simp only [List.length_map]
        calc (q.filter fun a => a.index == i).length * (R + 1) ≤ 1 * (R + 1) :=
              Nat.mul_le_mul_right _ hlen
          _ = R + 1 := by omega

theorem runLoop_cons_ok (R : Nat) (net : Nat → Nat → HttpResult)
    (a : DownloadAttempt) (rest : List DownloadAttempt)
    (h : (downloadFile (net a.index a.count)).1 = DlResult.ok) :
    runLoop R net (a :: rest) =
      (Event.succeeded a.index a.count :: (runLoop R net rest).1,
        (runLoop R net rest).2) := by
  unfold runLoop
  have hM := queueMeasure_cons R a rest
  obtain ⟨m, hm⟩ : ∃ m, queueMeasure R (a :: rest) = m + 1 :=
    ⟨queueMeasure R (a :: rest) - 1, by omega⟩
  rw [hm, runLoopAux_cons_ok R net m a rest h,
    runLoopAux_fuel_congr R net m (queueMeasure R rest) rest (by omega) (le_refl _)]

theorem runLoop_cons_retry (R : Nat) (net : Nat → Nat → HttpResult)
    (a : DownloadAttempt) (rest : List DownloadAttempt)
    (h : (downloadFile (net a.index a.count)).1 = DlResult.downloadFailed)
    (hc : a.count < R) :
    runLoop R net (a :: rest) =
      (Event.retried a.index a.count ::
        (runLoop R net (rest ++ [⟨a.count + 1, a.index, a.name⟩])).1,
        (runLoop R net (rest ++ [⟨a.count + 1, a.index, a.name⟩])).2) := by
  unfold runLoop
  have hM := queueMeasure_cons R a rest
  have hq : queueMeasure R
      (rest ++ [(⟨a.count + 1, a.index, a.name⟩ : DownloadAttempt)]) + 1 =
      queueMeasure R (a :: rest) := by
    rw [queueMeasure_append_one]
    simp only
    omega
  obtain ⟨m, hm⟩ : ∃ m, queueMeasure R (a :: rest) = m + 1 :=
    ⟨queueMeasure R (a :: rest) - 1, by omega⟩
  rw [hm, runLoopAux_cons_retry R net m a rest h hc]
  have hcg := runLoopAux_fuel_congr R net m
    (queueMeasure R (rest ++ [(⟨a.count + 1, a.index, a.name⟩ : DownloadAttempt)]))
    (rest ++ [(⟨a.count + 1, a.index, a.name⟩ : DownloadAttempt)])
    (by omega) (le_refl _)
  rw [hcg]

theorem runLoop_cons_exhaust (R : Nat) (net : Nat → Nat → HttpResult)
    (a : DownloadAttempt) (rest : List DownloadAttempt)
    (h : (downloadFile (net a.index a.count)).1 = DlResult.downloadFailed)
    (hc : ¬ a.count < R) :
    runLoop R net (a :: rest) =
      (Event.failed a.index a.count :: (runLoop R net rest).1,
        (runLoop R net rest).2) := by
  unfold runLoop
  have hM := queueMeasure_cons R a rest
  obtain ⟨m, hm⟩ : ∃ m, queueMeasure R (a :: rest) = m + 1 :=
    ⟨queueMeasure R (a :: rest) - 1, by omega⟩
  rw [hm, runLoopAux_cons_exhaust R net m a rest h hc,
    runLoopAux_fuel_congr R net m (queueMeasure R rest) rest (by omega) (le_refl _)]

/-! The claims about the Scheduler (src/unnamed/part_000, `run`). -/

/-- Claim C1: for every manifest of N spine entries and retry limit R the
queue-draining loop terminates (first conjunct: any fuel past the measure
gives the same result, so the iteration is finite), executes at most
N*(1+R) attempts, executes each entry at most 1+R times, produces exactly
one terminal outcome (Succeeded or Failed) per original entry, and
executes first attempts in manifest order: the k-th executed event is the
count-0 attempt of entry k+1, and every event past the first N belongs to
a re-enqueued attempt (count at least 1).  Stated for runs in which every
attempt yields success or the retryable HTTP 204 outcome; a fatal outcome
instead aborts the run, which is claim C3. -/
theorem scheduler_run_bounds (R : Nat) (net : Nat → Nat → HttpResult)
    (spine : List Spine) (hnf : NoFatal net) :
    (∀ fuel, queueMeasure R (mkAttempts spine) ≤ fuel →
      runLoopAux R net fuel (mkAttempts spine) =
        runLoop R net (mkAttempts spine)) ∧
    (runLoop R net (mkAttempts spine)).1.length ≤ spine.length * (1 + R) ∧
    (∀ i, ((runLoop R net (mkAttempts spine)).1.filter
      fun e => evtIndex e == i).length ≤ 1 + R) ∧
    (∀ i, 1 ≤ i → i ≤ spine.length →
      ((runLoop R net (mkAttempts spine)).1.filter
        fun e => isTerminal e && (evtIndex e == i)).length = 1) ∧
    (∀ k, k < spine.length → ∃ e,
      ((runLoop R net (mkAttempts spine)).1)[k]? = some e ∧
      evtIndex e = k + 1 ∧ evtCount e = 0) ∧
    (∀ j e, spine.length ≤ j →
      ((runLoop R net (mkAttempts spine)).1)[j]? = some e →
        1 ≤ evtCount e) := by
  have hcnt : ∀ a ∈ mkAttempts spine, a.count ≤ R := by
    intro a ha
    obtain ⟨h0, _, _⟩ := mkAttemptsFrom_mem 0 spine a ha
    omega
  unfold runLoop mkAttempts
  unfold mkAttempts at hcnt
  refine ⟨?_, ?_, ?_, ?_, ?_, ?_⟩
  · intro fuel hfuel
    exact runLoopAux_fuel_congr R net fuel
      (queueMeasure R (mkAttemptsFrom 0 spine)) (mkAttemptsFrom 0 spine)
      hfuel (le_refl _)
  · calc (runLoopAux R net (queueMeasure R (mkAttemptsFrom 0 spine))
          (mkAttemptsFrom 0 spine)).1.length
        ≤ ((mkAttemptsFrom 0 spine).map fun a => R + 1 - a.count).sum :=
          runLoopAux_length_le R net _ _ (le_refl _) hcnt
      _ = spine.length * (R + 1) := mkAttemptsFrom_budget_sum R 0 spine
      _ = spine.length * (1 + R) := by ring
  · intro i
    calc ((runLoopAux R net (queueMeasure R (mkAttemptsFrom 0 spine))
          (mkAttemptsFrom 0 spine)).1.filter fun e => evtIndex e == i).length
        ≤ idxSum R i (mkAttemptsFrom 0 spine) :=
          runLoopAux_index_le R net i _ _ (le_refl _) hcnt
      _ ≤ R + 1 := idxSum_le R i _ (mkAttemptsFrom_filter_le_one 0 i spine)
      _ = 1 + R := by ring
  · intro i h1 h2
    rw [runLoopAux_terminal_count R net i hnf _ _ (le_refl _)]
    exact mkAttemptsFrom_filter_eq_one 0 i spine (by omega) (by omega)
  · intro k hk
    have hlen : k < (mkAttemptsFrom 0 spine).length := by
      rw [mkAttemptsFrom_length]
      exact hk
    obtain ⟨s, hs, hget⟩ := mkAttemptsFrom_getElem 0 spine k hk
    have hnth := runLoopAux_getElem R net hnf
      (queueMeasure R (mkAttemptsFrom 0 spine)) (mkAttemptsFrom 0 spine)
      (le_refl _) k hlen
    rw [hget] at hnth
    refine ⟨evtOf R net ⟨0, 0 + k + 1, s.originalPath⟩, by simpa using hnth, ?_, ?_⟩
    · rw [evtIndex_evtOf]
      show 0 + k + 1 = k + 1
      omega
    · rw [evtCount_evtOf]
  · intro j e hj hget
    exact runLoopAux_late_count R net hnf _ _ (le_refl _) j e
      (by rw [mkAttemptsFrom_length]; exact hj) hget

/-- Witness for C1 at a concrete input: one entry, retry limit 0, every
response HTTP 200. -/
theorem scheduler_run_bounds_witness :
    (∀ fuel, queueMeasure 0 (mkAttempts [⟨"p", "a"⟩]) ≤ fuel →
      runLoopAux 0 (fun _ _ => HttpResult.status 200) fuel
        (mkAttempts [⟨"p", "a"⟩]) =
        runLoop 0 (fun _ _ => HttpResult.status 200) (mkAttempts [⟨"p", "a"⟩])) ∧
    (runLoop 0 (fun _ _ => HttpResult.status 200)
      (mkAttempts [⟨"p", "a"⟩])).1.length ≤
        [(⟨"p", "a"⟩ : Spine)].length * (1 + 0) ∧
    (∀ i, ((runLoop 0 (fun _ _ => HttpResult.status 200)
      (mkAttempts [⟨"p", "a"⟩])).1.filter
      fun e => evtIndex e == i).length ≤ 1 + 0) ∧
    (∀ i, 1 ≤ i → i ≤ [(⟨"p", "a"⟩ : Spine)].length →
      ((runLoop 0 (fun _ _ => HttpResult.status 200)
        (mkAttempts [⟨"p", "a"⟩])).1.filter
        fun e => isTerminal e && (evtIndex e == i)).length = 1) ∧
    (∀ k, k < [(⟨"p", "a"⟩ : Spine)].length → ∃ e,
      ((runLoop 0 (fun _ _ => HttpResult.status 200)
        (mkAttempts [⟨"p", "a"⟩])).1)[k]? = some e ∧
      evtIndex e = k + 1 ∧ evtCount e = 0) ∧
    (∀ j e, [(⟨"p", "a"⟩ : Spine)].length ≤ j →
      ((runLoop 0 (fun _ _ => HttpResult.status 200)
        (mkAttempts [⟨"p", "a"⟩])).1)[j]? = some e →
        1 ≤ evtCount e) :=
  scheduler_run_bounds 0 (fun _ _ => HttpResult.status 200) [⟨"p", "a"⟩]
    (fun _ _ => Or.inl rfl)

/-- Claim C2: an attempt with retry count below the limit that fails with
HTTP 204 appends exactly one incremented copy of itself at the tail of
the queue (first conjunct: the rest of the run is the run of
`rest ++ [incremented a]`, nothing else is inserted), and that
re-attempt executes strictly after every attempt that was queued at the
moment of the retry: positions 1..|rest| of the trace execute the
previously queued attempts in order, and position |rest|+1 executes the
re-attempt of the same entry with count+1. -/
theorem retry_appended_at_tail (R : Nat) (net : Nat → Nat → HttpResult)
    (a : DownloadAttempt) (rest : List DownloadAttempt) (hnf : NoFatal net)
    (h204 : net a.index a.count = HttpResult.status 204) (hcr : a.count < R) :
    (runLoop R net (a :: rest)).1 =
      Event.retried a.index a.count ::
        (runLoop R net (rest ++ [⟨a.count + 1, a.index, a.name⟩])).1 ∧
    (∀ k, k < rest.length →
      ((runLoop R net (a :: rest)).1)[k + 1]? =
        (rest[k]?).map (evtOf R net)) ∧
    (∃ e, ((runLoop R net (a :: rest)).1)[rest.length + 1]? = some e ∧
      evtIndex e = a.index ∧ evtCount e = a.count + 1) := by
  have hdl : (downloadFile (net a.index a.count)).1 = DlResult.downloadFailed := by
    rw [h204]
    rfl
  have hstep := runLoop_cons_retry R net a rest hdl hcr
  have htr := congrArg Prod.fst hstep
  simp only at htr
  refine ⟨htr, ?_, ?_⟩
  · intro k hk
    rw [htr]
    simp only [List.getElem?_cons_succ]
    have hnth := runLoopAux_getElem R net hnf
      (queueMeasure R (rest ++ [(⟨a.count + 1, a.index, a.name⟩ : DownloadAttempt)]))
      (rest ++ [(⟨a.count + 1, a.index, a.name⟩ : DownloadAttempt)])
      (le_refl _) k (by simp; omega)
    rw [show (runLoop R net
        (rest ++ [(⟨a.count + 1, a.index, a.name⟩ : DownloadAttempt)])).1 =
        (runLoopAux R net
          (queueMeasure R (rest ++ [(⟨a.count + 1, a.index, a.name⟩ : DownloadAttempt)]))
          (rest ++ [(⟨a.count + 1, a.index, a.name⟩ : DownloadAttempt)])).1 from rfl,
      hnth, List.getElem?_append_left hk]
  · refine ⟨evtOf R net ⟨a.count + 1, a.index, a.name⟩, ?_, by simp, by simp⟩
    rw [htr]
    simp only [List.getElem?_cons_succ]
    have hnth := runLoopAux_getElem R net hnf
      (queueMeasure R (rest ++ [(⟨a.count + 1, a.index, a.name⟩ : DownloadAttempt)]))
      (rest ++ [(⟨a.count + 1, a.index, a.name⟩ : DownloadAttempt)])
      (le_refl _) rest.length (by simp)
    rw [show (runLoop R net
        (rest ++ [(⟨a.count + 1, a.index, a.name⟩ : DownloadAttempt)])).1 =
        (runLoopAux R net
          (queueMeasure R (rest ++ [(⟨a.count + 1, a.index, a.name⟩ : DownloadAttempt)]))
          (rest ++ [(⟨a.count + 1, a.index, a.name⟩ : DownloadAttempt)])).1 from rfl,
      hnth, List.getElem?_append_right (Nat.le_refl _)]
    simp

/-- Witness for C2 at a concrete input: limit 1, two queued attempts, the
first attempt of each entry answers 204 and the re-attempt answers 200. -/
theorem retry_appended_at_tail_witness :
    (runLoop 1 (fun _ c => if c = 0 then HttpResult.status 204 else HttpResult.status 200)
      ((⟨0, 1, "a"⟩ : DownloadAttempt) :: [⟨0, 2, "b"⟩])).1 =
      Event.retried 1 0 ::
        (runLoop 1 (fun _ c => if c = 0 then HttpResult.status 204 else HttpResult.status 200)
          ([(⟨0, 2, "b"⟩ : DownloadAttempt)] ++ [⟨0 + 1, 1, "a"⟩])).1 ∧
    (∀ k, k < [(⟨0, 2, "b"⟩ : DownloadAttempt)].length →
      ((runLoop 1 (fun _ c => if c = 0 then HttpResult.status 204 else HttpResult.status 200)
        ((⟨0, 1, "a"⟩ : DownloadAttempt) :: [⟨0, 2, "b"⟩])).1)[k + 1]? =
        ([(⟨0, 2, "b"⟩ : DownloadAttempt)][k]?).map
          (evtOf 1 (fun _ c => if c = 0 then HttpResult.status 204 else HttpResult.status 200))) ∧
    (∃ e, ((runLoop 1 (fun _ c => if c = 0 then HttpResult.status 204 else HttpResult.status 200)
      ((⟨0, 1, "a"⟩ : DownloadAttempt) :: [⟨0, 2, "b"⟩])).1)[
        [(⟨0, 2, "b"⟩ : DownloadAttempt)].length + 1]? = some e ∧
      evtIndex e = 1 ∧ evtCount e = 0 + 1) :=
  retry_appended_at_tail 1
    (fun _ c => if c = 0 then HttpResult.status 204 else HttpResult.status 200)
    ⟨0, 1, "a"⟩ [⟨0, 2, "b"⟩]
    (fun _ c => by by_cases h : c = 0 <;> simp [downloadFile, h])
    rfl (by decide)

/-- Claim C3: when the run aborts, the propagated error is fatal (a
non-200/204 status or a transport failure), it carries the 1-based
sequence index of the originating manifest entry, and the aborting
execution is the last event of the trace: no queued attempt or later
manifest entry executes after it. -/
theorem fatal_aborts_run (R : Nat) (net : Nat → Nat → HttpResult)
    (spine : List Spine) (i : Nat) (e : DlResult)
    (hres : (runLoop R net (mkAttempts spine)).2 = some (i, e)) :
    isFatal e = true ∧ 1 ≤ i ∧ i ≤ spine.length ∧
    ∃ t c, (runLoop R net (mkAttempts spine)).1 =
        t ++ [Event.fatalAttempt i c] ∧
      (downloadFile (net i c)).1 = e := by
  unfold runLoop mkAttempts at hres ⊢
  obtain ⟨hfat, ⟨b, hb, hbi⟩, t, c, htr, hdf⟩ :=
    runLoopAux_fatal R net _ _ (le_refl _) i e hres
  obtain ⟨_, hb1, hb2⟩ := mkAttemptsFrom_mem 0 spine b hb
  exact ⟨hfat, by omega, by omega, t, c, htr, hdf⟩

/-- Witness for C3 at a concrete input: the single entry answers HTTP 500,
the run aborts with the pair (1, statusErr 500). -/
theorem fatal_aborts_run_witness :
    isFatal (DlResult.statusErr 500) = true ∧ 1 ≤ 1 ∧
    1 ≤ [(⟨"p", "a"⟩ : Spine)].length ∧
    ∃ t c, (runLoop 0 (fun _ _ => HttpResult.status 500)
        (mkAttempts [⟨"p", "a"⟩])).1 =
        t ++ [Event.fatalAttempt 1 c] ∧
      (downloadFile ((fun _ _ => HttpResult.status 500) 1 c)).1 =
        DlResult.statusErr 500 :=
  fatal_aborts_run 0 (fun _ _ => HttpResult.status 500) [⟨"p", "a"⟩]
    1 (DlResult.statusErr 500) (by decide)

/-- Claim C4: an attempt whose retry count equals the retry limit that
fails with HTTP 204 terminates as Failed without appending any further
attempt (the continuation is exactly the run of the remaining queue), the
run continues with the remaining queued attempts, and it still returns
overall success when no fatal error occurs in the remainder. -/
theorem retry_exhausted_fails_entry (R : Nat) (net : Nat → Nat → HttpResult)
    (a : DownloadAttempt) (rest : List DownloadAttempt)
    (h204 : net a.index a.count = HttpResult.status 204)
    (hcr : a.count = R) :
    (runLoop R net (a :: rest)).1 =
      Event.failed a.index a.count :: (runLoop R net rest).1 ∧
    (runLoop R net (a :: rest)).2 = (runLoop R net rest).2 ∧
    ((runLoop R net rest).2 = none → (runLoop R net (a :: rest)).2 = none) := by
  have hdl : (downloadFile (net a.index a.count)).1 = DlResult.downloadFailed := by
    rw [h204]
    rfl
  have hstep := runLoop_cons_exhaust R net a rest hdl (by omega)
  have htr := congrArg Prod.fst hstep
  have hrs := congrArg Prod.snd hstep
  simp only at htr hrs
  exact ⟨htr, hrs, fun h => by rw [hrs, h]⟩

/-- Witness for C4 at a concrete input: retry limit 0, the exhausted
attempt answers 204 and fails; the run of the remaining (empty) queue
succeeds. -/
theorem retry_exhausted_fails_entry_witness :
    (runLoop 0 (fun _ _ => HttpResult.status 204)
      ((⟨0, 1, "a"⟩ : DownloadAttempt) :: [])).1 =
      Event.failed 1 0 :: (runLoop 0 (fun _ _ => HttpResult.status 204) []).1 ∧
    (runLoop 0 (fun _ _ => HttpResult.status 204)
      ((⟨0, 1, "a"⟩ : DownloadAttempt) :: [])).2 =
      (runLoop 0 (fun _ _ => HttpResult.status 204) []).2 ∧
    ((runLoop 0 (fun _ _ => HttpResult.status 204) []).2 = none →
      (runLoop 0 (fun _ _ => HttpResult.status 204)
        ((⟨0, 1, "a"⟩ : DownloadAttempt) :: [])).2 = none) :=
  retry_exhausted_fails_entry 0 (fun _ _ => HttpResult.status 204)
    ⟨0, 1, "a"⟩ [] rfl rfl

/-! Timing model of the rate limiter (src/unnamed/part_000 lines 194-197):
`ticker := time.NewTicker(interval)` before the loop, `<-ticker.C` before
every download, including the first.  Go's `time.Ticker` is documented to
send on its channel at successive multiples of the interval after
creation, to retain at most one undelivered tick, and to drop further
ticks while the receiver lags.  Hence the receive preceding attempt j+1
consumes the earliest tick strictly later than the receive preceding
attempt j, and completes at that tick's time or when the previous download
finished, whichever is later. -/

/-- Time of the first ticker tick strictly after instant `r`, for tick
interval `i`: the next multiple of `i`. -/
def nextTick (i r : Nat) : Nat := i * (r / i + 1)

/-- Start instants of successive download attempts: `prevStart` is the
instant the previous receive completed (the previous attempt started),
`waitAt` the instant the current receive began (the previous attempt
finished), and the list holds the duration of each remaining attempt.
Each attempt starts at its tick, or as soon as the loop reaches the
receive again if its tick was already pending. -/
def startTimesAux (i : Nat) : Nat → Nat → List Nat → List Nat
  | _, _, [] => []
  | prevStart, waitAt, d :: ds =>
    (max waitAt (nextTick i prevStart)) ::
      startTimesAux i (max waitAt (nextTick i prevStart))
        (max waitAt (nextTick i prevStart) + d) ds

/-- Start instants of all attempts of a run beginning at instant 0, where
`ds` lists the duration of each attempt. -/
def startTimes (i : Nat) (ds : List Nat) : List Nat := startTimesAux i 0 0 ds

theorem startTimesAux_length (i : Nat) :
    ∀ ds p w, (startTimesAux i p w ds).length = ds.length := by
  intro ds
  induction ds with
  | nil => intro p w; rfl
  | cons d ds ih => intro p w; simp [startTimesAux, ih]

/-- On-grid runs: when every download finishes within one interval, the
attempts start exactly at the successive ticks. -/
theorem startTimesAux_grid (i : Nat) (hi : 0 < i) :
    ∀ ds k w, (∀ d ∈ ds, d ≤ i) → w ≤ i * (k + 1) →
      ∀ j, j < ds.length →
        (startTimesAux i (i * k) w ds)[j]? = some (i * (k + 1 + j)) := by
  intro ds
  induction ds with
  | nil => intro k w _ _ j hj; simp at hj
  | cons d ds ih =>
    intro k w hd hw j hj
    have hnt : nextTick i (i * k) = i * (k + 1) := by
      unfold nextTick
      rw [Nat.mul_div_cancel_left k hi]
    have hmax : max w (nextTick i (i * k)) = i * (k + 1) := by
      rw [hnt]
      exact max_eq_right hw
    match j with
    | 0 =>
      simp [startTimesAux, hmax]
    | j + 1 =>
      simp only [startTimesAux, hmax, List.getElem?_cons_succ]
      have hih := ih (k + 1) (i * (k + 1) + d)
        (fun x hx => hd x (by simp [hx]))
        (by
          have hdi : d ≤ i := hd d (by simp)
          have : i * (k + 1) + d ≤ i * (k + 1) + i := by omega
          calc i * (k + 1) + d ≤ i * (k + 1) + i := this
            _ = i * (k + 1 + 1) := by ring)
        j (by simpa using hj)
      rw [hih]
      simp only [Option.some_inj]
      ring

/-- Counterexample to C9 as stated: with interval 10 and a first download
lasting 14 time units, the second attempt starts at 24 (when the pending
tick of instant 20 is received) and the third at the tick of instant 30:
only 6 time units apart, less than the interval. -/
theorem rate_gap_counterexample :
    (startTimes 10 [14, 1, 0])[1]? = some 24 ∧
    (startTimes 10 [14, 1, 0])[2]? = some 30 ∧ 30 - 24 < 10 := by
  refine ⟨?_, ?_, by omega⟩ <;> rfl

/-- Claim C9, amended: the Scheduler blocks on the ticker before every
attempt, the first download begins only at the first tick, one full
interval after the ticker is created (never immediately), and when every
download finishes within one interval each attempt starts exactly at the
next tick, so consecutive starts are at least one interval apart.  (As
stated, the claim fails when a download outlasts the interval: the
pending-tick receive returns immediately and a later gap can be shorter
than the interval, see the counterexample.) -/
theorem rate_limit_amended (i : Nat) (ds : List Nat) (hi : 0 < i)
    (hd : ∀ d ∈ ds, d ≤ i) :
    (∀ j, j < ds.length → (startTimes i ds)[j]? = some (i * (j + 1))) ∧
    (∀ s, (startTimes i ds)[0]? = some s → i ≤ s) ∧
    (∀ k s1 s2, (startTimes i ds)[k]? = some s1 →
      (startTimes i ds)[k + 1]? = some s2 → s1 + i ≤ s2) := by
  have hgrid : ∀ j, j < ds.length →
      (startTimes i ds)[j]? = some (i * (j + 1)) := by
    intro j hj
    have := startTimesAux_grid i hi ds 0 0 hd (by omega) j hj
    rw [show i * 0 = 0 from by ring] at this
    rw [startTimes, this]
    simp only [Option.some_inj]
    ring
  refine ⟨hgrid, ?_, ?_⟩
  · intro s hs
    have hlen : 0 < ds.length := by
      by_contra h
      have h0 : ds.length = 0 := by omega
      have hnone : (startTimes i ds)[0]? = none := by
        apply List.getElem?_eq_none
        rw [startTimes, startTimesAux_length]
        omega
      rw [hnone] at hs
      exact Option.noConfusion hs
    rw [hgrid 0 hlen] at hs
    have : s = i * 1 := by exact Option.some_inj.mp hs.symm
    omega
  · intro k s1 s2 hs1 hs2
    have hlt : k + 1 < ds.length := by
      by_contra h
      have hnone : (startTimes i ds)[k + 1]? = none := by
        apply List.getElem?_eq_none
        rw [startTimes, startTimesAux_length]
        omega
      rw [hnone] at hs2
      exact Option.noConfusion hs2
    rw [hgrid k (by omega)] at hs1
    rw [hgrid (k + 1) hlt] at hs2
    have h1 : s1 = i * (k + 1) := Option.some_inj.mp hs1.symm
    have h2 : s2 = i * (k + 1 + 1) := Option.some_inj.mp hs2.symm
    subst h1
    subst h2
    have : i * (k + 1 + 1) = i * (k + 1) + i := by ring
    omega

/-- Witness for the amended C9 at a concrete input: interval 2, three
downloads of durations 1, 2 and 0 — every start is on the tick grid. -/
theorem rate_limit_amended_witness :
    (∀ j, j < [1, 2, 0].length →
      (startTimes 2 [1, 2, 0])[j]? = some (2 * (j + 1))) ∧
    (∀ s, (startTimes 2 [1, 2, 0])[0]? = some s → 2 ≤ s) ∧
    (∀ k s1 s2, (startTimes 2 [1, 2, 0])[k]? = some s1 →
      (startTimes 2 [1, 2, 0])[k + 1]? = some s2 → s1 + 2 ≤ s2) :=
  rate_limit_amended 2 [1, 2, 0] (by decide) (by decide)

/-! The Variant B authentication hash (src/file/main.go lines 23-27 and
89-96): `fmt.Sprintf("%s|%s|%s|%s", ClientId, OMC, OS, HashSecret)`,
`utf16.Encode` of the runes, `binary.Write(hash, binary.LittleEndian, ...)`
into a `sha1` hasher, `base64.StdEncoding.EncodeToString` of the digest.
Bytes and UTF-16 code units are Nat values below 256 and 65536. -/

/-- Constant client identifier (src/file/main.go line 23). -/
def ClientId : String := "00000000-0000-0000-0000-000000000000"

/-- Constant shared secret (src/file/main.go line 24). -/
def HashSecret : String := "ELOSNOC*AIDEM*EVIRDREVO"

/-- Constant client version (src/file/main.go line 25). -/
def OMC : String := "1.2.0"

/-- Constant OS version (src/file/main.go line 26). -/
def OS : String := "10.14.2"

/-- The pipe-joined hash input of `run` (src/file/main.go line 89). -/
def licenseValue : String :=
  ClientId ++ "|" ++ OMC ++ "|" ++ OS ++ "|" ++ HashSecret

/-- UTF-16 encoding of one code point, after Go's `utf16.Encode`: code
points outside the surrogate range and below 0x10000 map to themselves,
code points up to 0x10FFFF map to a surrogate pair, anything else maps to
the replacement character 0xFFFD. -/
def utf16EncodeRune (v : Nat) : List Nat :=
  if v < 0xD800 ∨ (0xE000 ≤ v ∧ v < 0x10000) then [v]
  else if 0x10000 ≤ v ∧ v ≤ 0x10FFFF then
    [0xD800 + (v - 0x10000) / 0x400, 0xDC00 + (v - 0x10000) % 0x400]
  else [0xFFFD]

/-- Go `utf16.Encode` over a rune sequence. -/
def utf16Encode (rs : List Nat) : List Nat := rs.flatMap utf16EncodeRune

/-- `binary.Write(…, binary.LittleEndian, []uint16)`: each 16-bit code
unit written as two bytes, low byte first. -/
def leBytes16 (us : List Nat) : List Nat :=
  us.flatMap fun u => [u % 256, u / 256 % 256]

/-- 32-bit left rotation. -/
def rotl32 (x k : Nat) : Nat :=
  ((x <<< k) ||| (x >>> (32 - k))) % 4294967296

/-- SHA-1 round function (FIPS 180-4): Ch, Parity, Maj, Parity over the
four 20-round groups; complement taken against the 32-bit mask. -/
def sha1F (i b c d : Nat) : Nat :=
  if i < 20 then (b &&& c) ||| ((b ^^^ 4294967295) &&& d)
  else if i < 40 then b ^^^ c ^^^ d
  else if i < 60 then (b &&& c) ||| (b &&& d) ||| (c &&& d)
  else b ^^^ c ^^^ d

/-- SHA-1 round constants. -/
def sha1K (i : Nat) : Nat :=
  if i < 20 then 1518500249
  else if i < 40 then 1859775393
  else if i < 60 then 2400959708
  else 3395469782

/-- The 80 SHA-1 rounds over the message schedule, carried in the
(a, b, c, d, e) working state. -/
def sha1Rounds : Nat → Nat × Nat × Nat × Nat × Nat → List Nat →
    Nat × Nat × Nat × Nat × Nat
  | _, st, [] => st
  | i, (a, b, c, d, e), w :: ws =>
    sha1Rounds (i + 1)
      ((rotl32 a 5 + sha1F i b c d + e + sha1K i + w) % 4294967296,
        a, rotl32 b 30, c, d) ws

/-- Message-schedule extension, 64 steps; `acc` holds the schedule so far,
newest word first, so the words 3, 8, 14 and 16 positions back sit at
reversed offsets 2, 7, 13 and 15. -/
def sha1ExtendAux : Nat → List Nat → List Nat
  | 0, acc => acc
  | n + 1, acc =>
    sha1ExtendAux n
      (rotl32 ((acc.getD 2 0) ^^^ (acc.getD 7 0) ^^^
        (acc.getD 13 0) ^^^ (acc.getD 15 0)) 1 :: acc)

/-- The 80-word message schedule of one 16-word block. -/
def sha1Schedule (block : List Nat) : List Nat :=
  (sha1ExtendAux 64 block.reverse).reverse

/-- One SHA-1 block compression: run the 80 rounds and add the result to
the chaining state modulo 2^32. -/
def sha1Compress (h : Nat × Nat × Nat × Nat × Nat) (block : List Nat) :
    Nat × Nat × Nat × Nat × Nat :=
  match h, sha1Rounds 0 h (sha1Schedule block) with
  | (h0, h1, h2, h3, h4), (a, b, c, d, e) =>
    ((h0 + a) % 4294967296, (h1 + b) % 4294967296, (h2 + c) % 4294967296,
      (h3 + d) % 4294967296, (h4 + e) % 4294967296)

/-- Fold the compression over the 16-word blocks of the padded message. -/
def sha1Blocks : Nat × Nat × Nat × Nat × Nat → List Nat →
    Nat × Nat × Nat × Nat × Nat
  | h, w0 :: w1 :: w2 :: w3 :: w4 :: w5 :: w6 :: w7 :: w8 :: w9 :: w10 ::
      w11 :: w12 :: w13 :: w14 :: w15 :: rest =>
    sha1Blocks (sha1Compress h
      [w0, w1, w2, w3, w4, w5, w6, w7, w8, w9, w10, w11, w12, w13, w14, w15]) rest
  | h, _ => h

/-- SHA-1 padding: the 0x80 byte, zeros to 56 mod 64, and the bit length
as eight big-endian bytes. -/
def sha1Pad (msg : List Nat) : List Nat :=
  msg ++ 128 :: List.replicate ((55 + 64 - msg.length % 64) % 64) 0 ++
    ((List.range 8).map fun j => msg.length * 8 / 256 ^ (7 - j) % 256)

/-- Big-endian grouping of bytes into 32-bit words. -/
def bytesToWords : List Nat → List Nat
  | b0 :: b1 :: b2 :: b3 :: bs =>
    (((b0 * 256 + b1) * 256 + b2) * 256 + b3) :: bytesToWords bs
  | _ => []

/-- SHA-1 of a byte sequence: 20 digest bytes. -/
def sha1 (msg : List Nat) : List Nat :=
  match sha1Blocks (1732584193, 4023233417, 2562383102, 271733878, 3285377520)
      (bytesToWords (sha1Pad msg)) with
  | (h0, h1, h2, h3, h4) =>
    [h0, h1, h2, h3, h4].flatMap fun h =>
      (List.range 4).map fun j => h / 256 ^ (3 - j) % 256

/-- The standard base64 alphabet (`base64.StdEncoding`). -/
def base64Table : String :=
  "ABCDEFGHIJKLMNOPQRSTUVWXYZabcdefghijklmnopqrstuvwxyz0123456789+/"

/-- Character of one 6-bit group. -/
def base64Char (n : Nat) : Char := base64Table.toList.getD n 'A'

/-- Standard base64 encoding of a byte sequence, with `=` padding. -/
def base64Encode : List Nat → List Char
  | [] => []
  | [b0] => [base64Char (b0 / 4), base64Char (b0 % 4 * 16), '=', '=']
  | [b0, b1] =>
    [base64Char (b0 / 4), base64Char (b0 % 4 * 16 + b1 / 16),
      base64Char (b1 % 16 * 4), '=']
  | b0 :: b1 :: b2 :: bs =>
    base64Char (b0 / 4) :: base64Char (b0 % 4 * 16 + b1 / 16) ::
      base64Char (b1 % 16 * 4 + b2 / 64) :: base64Char (b2 % 64) ::
      base64Encode bs

/-- The authentication hash of `run` (src/file/main.go lines 89-96): the
pipe-joined constant string, UTF-16 encoded, written little-endian into
SHA-1, the digest base64 encoded. -/
def encodedLicenseHash : String :=
  String.mk (base64Encode (sha1 (leBytes16
    (utf16Encode (licenseValue.toList.map Char.toNat)))))

set_option maxRecDepth 10000 in
/-- Claim C6: the authentication-hash computation over the fixed constants
deterministically produces the golden base64 digest, reproduced
independently by Python's hashlib over the UTF-16LE encoding of the same
string. -/
theorem auth_hash_golden :
    encodedLicenseHash = "Y/FyR6Zq9Iu2GqYbNPzmvqgnwP0=" := by decide

/-! The Variant B descriptor structure (src/file/main.go lines 29-54) and
the validation sequence of `run` (lines 111-128).  The XML decoding itself
is elided: `validateOdm` takes the already-decoded structure, exactly as
`run` does after `odmDecoder.Decode`. -/

/-- One declared part (src/file/main.go `Part`). -/
structure Part where
  filename : String
  name : String
  number : Nat
  deriving DecidableEq, Repr, Inhabited

/-- The part list with its declared count attribute (src/file/main.go
`Parts`); the count is a Go `int`. -/
structure Parts where
  count : Int
  part : List Part
  deriving DecidableEq, Repr, Inhabited

/-- One protocol descriptor (src/file/main.go `Protocol`). -/
structure Protocol where
  method : String
  baseUrl : String
  deriving DecidableEq, Repr, Inhabited

/-- One media format (src/file/main.go `Format`). -/
structure Format where
  parts : Parts
  protocols : List Protocol
  deriving DecidableEq, Repr, Inhabited

/-- The decoded descriptor (src/file/main.go `OverDriveMedia`); the
acquisition URL is kept as its string. -/
structure OverDriveMedia where
  acquisitionUrl : String
  contentId : String
  formats : List Format
  deriving DecidableEq, Repr, Inhabited

/-- The validation sequence of `run` (src/file/main.go lines 111-128), in
source order, producing the error message of the first failed check:
format count must be 1; the declared part count must equal the number of
listed parts — note the second `%d` of that message is given
`len(data.Formats)`, not the number of listed parts; protocol count must
be 1; the protocol method must be "download". -/
def validateOdm (data : OverDriveMedia) : Option String :=
  if data.formats.length ≠ 1 then
    some ("expected 1 format, got " ++ toString data.formats.length)
  else if (data.formats[0]!.parts.part.length : Int) ≠
      data.formats[0]!.parts.count then
    some ("expected " ++ toString data.formats[0]!.parts.count ++
      " format, got " ++ toString data.formats.length)
  else if data.formats[0]!.protocols.length ≠ 1 then
    some ("expected 1 protocol, got " ++
      toString data.formats[0]!.protocols.length)
  else if data.formats[0]!.protocols[0]!.method ≠ "download" then
    some ("unknown protocol method: " ++ data.formats[0]!.protocols[0]!.method)
  else none

/-- A descriptor with one format, declared part count 5, two listed parts
and one "download" protocol: the part-count check must fail, and per the
claim its message should name the expected count (5) and the actual
number of listed parts (2). -/
def partCountSample : OverDriveMedia :=
  ⟨"http://example.org/acq", "cid",
    [⟨⟨5, [⟨"f1", "n1", 1⟩, ⟨"f2", "n2", 2⟩]⟩, [⟨"download", "http://b"⟩]⟩]⟩

/-- Claim C7 (code bug): the part-count mismatch message prints the number
of formats, not the number of listed parts.  On `partCountSample` (2
listed parts against a declared count of 5) the code produces
"expected 5 format, got 1" — the 1 is `len(data.Formats)`; the actual
offending value 2 appears nowhere, and the noun is "format".  The other
three checks name their mismatches as the claim states. -/
theorem part_count_message_bug :
    validateOdm partCountSample = some "expected 5 format, got 1" ∧
    partCountSample.formats[0]!.parts.part.length = 2 ∧
    partCountSample.formats.length = 1 := by
  refine ⟨?_, by decide, by decide⟩
  decide

/-! The Variant A embedded-data extraction: the pattern
`window.bData = (?P<Data>` followed by a brace-delimited group `)` of
src/unnamed/part_000 line 25, applied at lines 154-155 as
`dataRegxp.FindSubmatch(dataBytes)[1]`.  In the pattern, the `.` after
`window` and the `.*` inside the group match any character except
newline, and the group is greedy: it runs from the opening brace to the
last closing brace on the same line.  `FindSubmatch` returns the leftmost
match or nil; indexing a nil slice with `[1]` is a runtime panic. -/

/-- The opening brace character. -/
def lbrace : Char := Char.ofNat 123

/-- The closing brace character. -/
def rbrace : Char := Char.ofNat 125

/-- Strip a literal from the front of a character list. -/
def stripLit : List Char → List Char → Option (List Char)
  | [], s => some s
  | _ :: _, [] => none
  | p :: ps, c :: cs => if c = p then stripLit ps cs else none

/-- Index of the last closing brace of a character list, if any. -/
def lastRBrace : List Char → Option Nat
  | [] => none
  | c :: cs =>
    match lastRBrace cs with
    | some k => some (k + 1)
    | none => if c = rbrace then some 0 else none

/-- Try the pattern anchored at the head of `s`; returns the capture
group (the brace-delimited text) on a match. -/
def dataMatchAt (s : List Char) : Option (List Char) :=
  match stripLit "window".toList s with
  | none => none
  | some r1 =>
    match r1 with
    | [] => none
    | c :: r2 =>
      if c = '\n' then none
      else
        match stripLit "bData = ".toList r2 with
        | none => none
        | some r3 =>
          match r3 with
          | [] => none
          | b :: r4 =>
            if b = lbrace then
              match lastRBrace (r4.takeWhile fun x => x ≠ '\n') with
              | some k =>
                some (lbrace :: (r4.takeWhile fun x => x ≠ '\n').take (k + 1))
              | none => none
            else none

/-- `dataRegxp.FindSubmatch`: the capture group of the leftmost match, or
none when the pattern matches nowhere. -/
def dataRegxpFind : List Char → Option (List Char)
  | [] => none
  | c :: cs =>
    match dataMatchAt (c :: cs) with
    | some g => some g
    | none => dataRegxpFind cs

/-- The extraction step `dataRegxp.FindSubmatch(dataBytes)[1]`
(src/unnamed/part_000 line 155): on a match, the capture group; on no
match, `FindSubmatch` returns a nil slice and the `[1]` index panics with
an index-out-of-range runtime error, modelled by `crash`. -/
inductive ExtractOutcome where
  | ok (data : List Char)
  | crash
  deriving DecidableEq, Repr

/-- Outcome of the extraction step on the element's unescaped text. -/
def extractBData (text : List Char) : ExtractOutcome :=
  match dataRegxpFind text with
  | some g => ExtractOutcome.ok g
  | none => ExtractOutcome.crash

/-- Claim C8 (code bug): on a script text that does not match the
embedded-JSON pattern the extraction step does not return a FormatError
or any error — it panics (crashes), because the nil result of
`FindSubmatch` is indexed unconditionally.  Second conjunct: the same
step on a matching text extracts the JSON group, confirming the model
matches on the intended shape. -/
theorem extract_no_match_crashes :
    extractBData "var x = 1;".toList = ExtractOutcome.crash ∧
    extractBData "window.bData = \x7b\"spine\":[]\x7d;".toList =
      ExtractOutcome.ok "\x7b\"spine\":[]\x7d".toList := by
  refine ⟨by decide, by decide⟩

/-- Counterexample to C5 as stated: the ODM-variant executor classifies
HTTP 204 exactly like every other non-200 status — a fatal status error,
not the retryable sentinel. -/
theorem odm_204_not_transient :
    (downloadFileOdm (HttpResult.status 204)).1 = DlResult.statusErr 204 ∧
    (downloadFileOdm (HttpResult.status 204)).1 ≠ DlResult.downloadFailed ∧
    isFatal (downloadFileOdm (HttpResult.status 204)).1 = true := by decide

/-- Claim C5, amended: in the HTML variant the executor classifies HTTP
204 as the retryable sentinel (`errDownloadFailed`), distinct from the
fatal status-error classification of every other non-200 status; in the
ODM variant there is no retryable condition at all — every non-200
status, 204 included, is a fatal status error. -/
theorem transient_classification_amended (s : Nat) :
    ((downloadFile (HttpResult.status s)).1 = DlResult.downloadFailed ↔
      s = 204) ∧
    (s ≠ 200 → s ≠ 204 →
      (downloadFile (HttpResult.status s)).1 = DlResult.statusErr s) ∧
    (s ≠ 200 →
      (downloadFileOdm (HttpResult.status s)).1 = DlResult.statusErr s) := by
  refine ⟨?_, ?_, ?_⟩
  · by_cases h4 : s = 204
    · subst h4
      simp [downloadFile]
    · by_cases h0 : s = 200
      · subst h0
        simp [downloadFile]
      · simp [downloadFile, h4, h0]
  · intro h0 h4
    simp [downloadFile, h4, h0]
  · intro h0
    simp [downloadFileOdm, h0]

/-- Witness for the amended C5 at concrete statuses: 204 is the sentinel
in the HTML variant, 500 is a fatal status error in both. -/
theorem transient_classification_amended_witness :
    (((downloadFile (HttpResult.status 204)).1 = DlResult.downloadFailed ↔
      (204 : Nat) = 204) ∧
    ((204 : Nat) ≠ 200 → (204 : Nat) ≠ 204 →
      (downloadFile (HttpResult.status 204)).1 = DlResult.statusErr 204) ∧
    ((204 : Nat) ≠ 200 →
      (downloadFileOdm (HttpResult.status 204)).1 = DlResult.statusErr 204)) ∧
    (((downloadFile (HttpResult.status 500)).1 = DlResult.downloadFailed ↔
      (500 : Nat) = 204) ∧
    ((500 : Nat) ≠ 200 → (500 : Nat) ≠ 204 →
      (downloadFile (HttpResult.status 500)).1 = DlResult.statusErr 500) ∧
    ((500 : Nat) ≠ 200 →
      (downloadFileOdm (HttpResult.status 500)).1 = DlResult.statusErr 500)) :=
  ⟨transient_classification_amended 204, transient_classification_amended 500⟩

/-- Claim C10: in both executor variants the destination file is created
(truncating any existing file of that name) exactly on an HTTP 200
response; a transport error, an HTTP 204, and any other non-200 status
all return before `os.Create`, performing no write to the destination
path. -/
theorem file_created_only_on_200 (r : HttpResult) :
    ((downloadFile r).2 = true ↔ r = HttpResult.status 200) ∧
    ((downloadFileOdm r).2 = true ↔ r = HttpResult.status 200) := by
  rcases r with _ | s
  · constructor <;> simp [downloadFile, downloadFileOdm]
  · constructor
    · by_cases h4 : s = 204
      · subst h4
        simp [downloadFile]
      · by_cases h0 : s = 200
        · subst h0
          simp [downloadFile]
        · simp [downloadFile, h4, h0]
    · by_cases h0 : s = 200
      · subst h0
        simp [downloadFileOdm]
      · simp [downloadFileOdm, h0]

end Odm
